import Mathlib

/-!
Verification of `transmitwave` against its specification.

The repository ships a single Python source file, `create_test_wav.py`,
which only prints usage instructions.  The specification additionally
describes the audio-modem core (framer, FSK line coder, waveform
synthesizer, WAV container, signal detector, demodulator, deframer) that
the stub refers to; that core is not part of the given sources, so it is
modelled here directly from the specification's words.

Part 1 embeds the Python stub as a pure function returning its observable
effect trace.  Part 2 models the modem core: bit/byte codecs, framing with
a 16-bit length field and a 16-bit additive checksum over length‖payload,
binary FSK at 1000 Hz / 2000 Hz with 441 samples per symbol at a 44100 Hz
sample rate, 16-bit PCM quantization, the RIFF/WAVE container, the
threshold-based preamble/start detector, and Goertzel-style correlation
demodulation.
-/

namespace Transmitwave

/-! ## Part 1: the Python stub `create_test_wav.py` -/

/-- An observable side effect of running the Python script.  The module
imports `subprocess`, `struct` and `sys`, so process spawning and file
system access are the effects that could in principle occur and must be
modelled so their absence is expressible. -/
inductive Effect where
  | printOut (s : String)
  | spawnProcess (cmd : String)
  | fsRead (path : String)
  | fsWrite (path : String)
deriving DecidableEq

/-- The text printed by the second `print` call of `create_test_wav`
(the Python triple-quoted string, including its leading newline and
indentation). -/
def instructionText : String :=
  "\n    To create test WAV files:\n    \n    1. Open demo.html in your browser at http://localhost:8000/demo.html\n    2. Enter test text in the \"Text to Audio\" panel\n    3. Click \"Encode to Audio\"\n    4. Click \"Download WAV\"\n    5. Use the downloaded file to test decoding\n    \n    Or, to create via CLI (requires CLI tool):\n    cargo run --bin testaudio -- encode \"Test message\" output.wav\n    "

/-- Embedding of `create_test_wav()` (src/create_test_wav.py, lines 11-27):
its effect trace together with its return value (Python `None`). -/
def create_test_wav : List Effect × Option Unit :=
  ([Effect.printOut "Creating test WAV file...",
    Effect.printOut instructionText], none)

/-- Embedding of running the module (`if __name__ == '__main__':` guard,
lines 29-30).  The script never reads `sys.argv` or the environment, so
both are ignored. -/
def runModule (_argv : List String) (_env : List (String × String)) :
    List Effect × Option Unit :=
  create_test_wav

/-- `true` iff the effect is a plain write to stdout. -/
def isPrintOut : Effect → Bool
  | Effect.printOut _ => true
  | _ => false

/-- C1: `create_test_wav` only prints the two fixed instruction texts and
returns `None`; every effect in its trace is a stdout write, so it performs
no encoding, decoding, or computation of any kind. -/
theorem create_test_wav_only_prints_instructions :
    create_test_wav =
      ([Effect.printOut "Creating test WAV file...",
        Effect.printOut instructionText], none) ∧
    create_test_wav.1.all isPrintOut = true := by
  constructor
  · rfl
  · rfl

/-- C9: `create_test_wav` (run as a module) is deterministic: the effect
trace and return value do not depend on command-line arguments or the
environment, and the return value is `None`. -/
theorem create_test_wav_deterministic :
    ∀ (argv₁ env₁ argv₂ env₂ : _),
      runModule argv₁ env₁ = runModule argv₂ env₂ ∧
      (runModule argv₁ env₁).2 = none := by
  intro argv₁ env₁ argv₂ env₂
  exact ⟨rfl, rfl⟩

/-- C10: running the module has no observable effect other than writing
text to stdout: its effect trace contains only `printOut` effects — no
subprocess invocation and no file-system access — although `subprocess`,
`struct` and `sys` are imported. -/
theorem runModule_effects_only_stdout :
    ∀ (argv : List String) (env : List (String × String)),
      (runModule argv env).1.all isPrintOut = true := by
  intro argv env
  rfl

/-! ## Part 2: the modem core, modelled from the spec

The core library is not among the given sources (the stub only references
it), so every definition below is modelled from the specification's words
(spec §§3-7). -/

/-- Modelled from the spec: encode-time error taxonomy (spec §7); the
encoder core itself is missing from the sources. -/
inductive EncodeError where
  | PayloadTooLarge
  | AmplitudeOutOfRange
deriving DecidableEq

/-- Modelled from the spec: decode-time error taxonomy (spec §7); the
decoder core itself is missing from the sources. -/
inductive DecodeError where
  | InvalidContainer
  | UnsupportedFormat
  | TruncatedContainer
  | NotFound
  | AmbiguousSymbol
  | Truncated
  | ChecksumMismatch
deriving DecidableEq

instance exceptDecEq {ε α : Type} [DecidableEq ε] [DecidableEq α] :
    DecidableEq (Except ε α)
  | Except.ok a, Except.ok b =>
      if h : a = b then isTrue (by rw [h]) else isFalse (fun hc => h (Except.ok.inj hc))
  | Except.ok _, Except.error _ => isFalse (fun hc => Except.noConfusion hc)
  | Except.error _, Except.ok _ => isFalse (fun hc => Except.noConfusion hc)
  | Except.error e, Except.error f =>
      if h : e = f then isTrue (by rw [h]) else isFalse (fun hc => h (Except.error.inj hc))

/-- Numeric value of one bit. -/
def bitVal (b : Bool) : ℕ := if b then 1 else 0

/-- Modelled from the spec: fixed-width big-endian (MSB-first) bit
serialization of an unsigned integer, used for the Length and Checksum
fields of a frame (spec §6); the framer is missing from the sources. -/
def natToBits : ℕ → ℕ → List Bool
  | 0, _ => []
  | w + 1, v => natToBits w (v / 2) ++ [v % 2 == 1]

/-- MSB-first bit deserialization, the inverse of `natToBits`. -/
def bitsToNat (bs : List Bool) : ℕ := bs.foldl (fun acc b => 2 * acc + bitVal b) 0

/-- Payload bytes to the frame bit stream, one byte to 8 MSB-first bits. -/
def bytesToBits (p : List ℕ) : List Bool := (p.map (natToBits 8)).flatten

/-- Frame bit stream back to bytes, 8 bits per byte; a trailing group of
fewer than 8 bits is ignored. -/
def bitsToBytes : List Bool → List ℕ
  | b0 :: b1 :: b2 :: b3 :: b4 :: b5 :: b6 :: b7 :: rest =>
      bitsToNat [b0, b1, b2, b3, b4, b5, b6, b7] :: bitsToBytes rest
  | _ => []

theorem natToBits_length (w v : ℕ) : (natToBits w v).length = w := by
  induction w generalizing v with
  | zero => rfl
  | succ w ih => simp [natToBits, ih]

theorem bitsToNat_append_bit (bs : List Bool) (b : Bool) :
    bitsToNat (bs ++ [b]) = 2 * bitsToNat bs + bitVal b := by
  simp [bitsToNat, List.foldl_append]

theorem bitsToNat_natToBits (w v : ℕ) : bitsToNat (natToBits w v) = v % 2 ^ w := by
  induction w generalizing v with
  | zero => simp [natToBits, bitsToNat]; omega
  | succ w ih =>
    rw [natToBits, bitsToNat_append_bit, ih]
    have hbit : bitVal (v % 2 == 1) = v % 2 := by
      rcases Nat.mod_two_eq_zero_or_one v with h | h <;> simp [h, bitVal]
    rw [hbit]
    have hk : 0 < 2 ^ w := pow_pos (by norm_num) w
    have hq := Nat.div_add_mod v 2
    have hq2 := Nat.div_add_mod (v / 2) (2 ^ w)
    have hmod : v / 2 % 2 ^ w < 2 ^ w := Nat.mod_lt _ hk
    have hr : v % 2 < 2 := Nat.mod_lt _ (by omega)
    have hswap : 2 ^ w * 2 * (v / 2 / 2 ^ w) = 2 * (2 ^ w * (v / 2 / 2 ^ w)) := by ring
    have hv : v = 2 ^ w * 2 * (v / 2 / 2 ^ w) + (2 * (v / 2 % 2 ^ w) + v % 2) := by omega
    have key : v % (2 ^ w * 2) = 2 * (v / 2 % 2 ^ w) + v % 2 := by
      conv_lhs => rw [hv]
      rw [Nat.mul_add_mod, Nat.mod_eq_of_lt (by omega)]
    rw [pow_succ]
    exact key.symm

theorem bytesToBits_cons (b : ℕ) (p : List ℕ) :
    bytesToBits (b :: p) = natToBits 8 b ++ bytesToBits p := by
  simp [bytesToBits]

theorem bytesToBits_length (p : List ℕ) : (bytesToBits p).length = 8 * p.length := by
  induction p with
  | nil => rfl
  | cons b p ih =>
    rw [bytesToBits_cons, List.length_append, natToBits_length, ih, List.length_cons]
    omega

theorem bitsToBytes_cons8 (l : List Bool) (h : l.length = 8) (rest : List Bool) :
    bitsToBytes (l ++ rest) = bitsToNat l :: bitsToBytes rest := by
  rcases l with _ | ⟨a0, _ | ⟨a1, _ | ⟨a2, _ | ⟨a3, _ | ⟨a4, _ | ⟨a5, _ | ⟨a6, _ | ⟨a7, tail⟩⟩⟩⟩⟩⟩⟩⟩ <;>
    simp_all [bitsToBytes]

theorem bitsToBytes_bytesToBits (p : List ℕ) (hb : ∀ b ∈ p, b < 256) :
    bitsToBytes (bytesToBits p) = p := by
  induction p with
  | nil => rfl
  | cons b p ih =>
    rw [bytesToBits_cons, bitsToBytes_cons8 _ (natToBits_length 8 b),
      bitsToNat_natToBits, show (2:ℕ) ^ 8 = 256 from by norm_num,
      Nat.mod_eq_of_lt (hb b (by simp)),
      ih (fun x hx => hb x (by simp [hx]))]

/-- Modelled from the spec: the fixed preamble bit pattern placed at the
start of every frame (spec §3, §6); the framer is missing from the
sources.  A 16-bit alternating pattern. -/
def preambleBits : List Bool :=
  [true, false, true, false, true, false, true, false,
   true, false, true, false, true, false, true, false]

/-- Width in bits of the frame's Length field (spec §4.1: a 16-bit
length field, payload length at most 2^16 - 1). -/
def lengthFieldWidth : ℕ := 16

/-- Width in bits of the frame's Checksum field. -/
def checksumFieldWidth : ℕ := 16

/-- The two bytes of the Length field (big-endian). -/
def lengthBytes (L : ℕ) : List ℕ := [L / 256 % 256, L % 256]

/-- Modelled from the spec: the fixed-width integrity value computed over
Length‖Payload (spec §3, §6): the byte sum reduced to 16 bits; the framer
is missing from the sources. -/
def checksumOf (L : ℕ) (payload : List ℕ) : ℕ :=
  (lengthBytes L ++ payload).sum % 65536

/-- Largest payload byte count representable in the 16-bit Length field. -/
def maxPayloadLen : ℕ := 65535

/-- The frame bit stream: Preamble ‖ Length ‖ Payload ‖ Checksum
(spec §3, §6). -/
def frameBits (p : List ℕ) : List Bool :=
  preambleBits ++ natToBits 16 p.length ++ bytesToBits p ++
    natToBits 16 (checksumOf p.length p)

/-- Modelled from the spec: `frame(payload) -> frame_bytes` (spec §4.1),
failing with `PayloadTooLarge` when the payload length does not fit the
16-bit Length field; the framer is missing from the sources. -/
def frame (p : List ℕ) : Except EncodeError (List Bool) :=
  if p.length ≤ maxPayloadLen then .ok (frameBits p) else .error .PayloadTooLarge

/-- Modelled from the spec: `deframe(bits) -> payload | DecodeError`
(spec §4.1): the preamble is expected at offset 0 (the caller has aligned
the buffer), then the Length field, `Length` payload bytes and the
Checksum field are read; the checksum is recomputed over Length‖Payload
and compared.  Fails with `ChecksumMismatch` if unequal, `Truncated` if
fewer bits are available than Length implies; the deframer is missing
from the sources. -/
def readChecksum (L : ℕ) (body : List Bool) : Except DecodeError (List ℕ) :=
  if 8 * L + 16 ≤ body.length then
    if bitsToNat ((body.drop (8 * L)).take 16) = checksumOf L (bitsToBytes (body.take (8 * L)))
    then .ok (bitsToBytes (body.take (8 * L)))
    else .error .ChecksumMismatch
  else .error .Truncated

def deframe (bs : List Bool) : Except DecodeError (List ℕ) :=
  if bs.take 16 = preambleBits then
    if 16 ≤ (bs.drop 16).length then
      readChecksum (bitsToNat ((bs.drop 16).take 16)) ((bs.drop 16).drop 16)
    else .error .Truncated
  else .error .NotFound

theorem preambleBits_length : preambleBits.length = 16 := rfl

/-- Parsing a frame presented as its four concatenated fields. -/
theorem deframe_concat (lbits pbits cbits : List Bool) (L : ℕ)
    (hl : lbits.length = 16) (hc : cbits.length = 16) (hp : pbits.length = 8 * L)
    (hLv : bitsToNat lbits = L) :
    deframe (preambleBits ++ (lbits ++ (pbits ++ cbits))) =
      (if bitsToNat cbits = checksumOf L (bitsToBytes pbits)
       then .ok (bitsToBytes pbits) else .error .ChecksumMismatch) := by
  have h1 : (preambleBits ++ (lbits ++ (pbits ++ cbits))).take 16 = preambleBits :=
    List.take_left' preambleBits_length
  have h2 : (preambleBits ++ (lbits ++ (pbits ++ cbits))).drop 16 = lbits ++ (pbits ++ cbits) :=
    List.drop_left' preambleBits_length
  have h3 : (lbits ++ (pbits ++ cbits)).take 16 = lbits := List.take_left' hl
  have h4 : (lbits ++ (pbits ++ cbits)).drop 16 = pbits ++ cbits := List.drop_left' hl
  have h5 : (pbits ++ cbits).take (8 * L) = pbits := List.take_left' hp
  have h6 : (pbits ++ cbits).drop (8 * L) = cbits := List.drop_left' hp
  have h7 : cbits.take 16 = cbits := List.take_of_length_le (by omega)
  rw [deframe, h1, if_pos rfl, h2, if_pos (by simp [hl, hp, hc]), h3, h4, hLv,
    readChecksum, if_pos (by simp [hp, hc]), h5, h6, h7]

theorem deframe_frameBits (p : List ℕ) (hL : p.length ≤ maxPayloadLen)
    (hb : ∀ b ∈ p, b < 256) : deframe (frameBits p) = .ok p := by
  have hmax : p.length < 65536 := by
    have := hL; simp [maxPayloadLen] at this; omega
  have hck : checksumOf p.length p < 65536 := by
    rw [checksumOf]; exact Nat.mod_lt _ (by norm_num)
  have h := deframe_concat (natToBits 16 p.length) (bytesToBits p)
    (natToBits 16 (checksumOf p.length p)) p.length
    (natToBits_length _ _) (natToBits_length _ _) (bytesToBits_length p)
    (by rw [bitsToNat_natToBits]; exact Nat.mod_eq_of_lt (by norm_num; omega))
  rw [frameBits, List.append_assoc, List.append_assoc, h,
    bitsToBytes_bytesToBits p hb, bitsToNat_natToBits,
    if_pos (by rw [show (2:ℕ) ^ 16 = 65536 from by norm_num]; exact Nat.mod_eq_of_lt hck)]

/-- Flip the bit at position `i` (out-of-range positions are a no-op on
the value read back, and `List.set` ignores them). -/
def flipBit (i : ℕ) (bs : List Bool) : List Bool := bs.set i (! bs.getD i false)

theorem flipBit_length (i : ℕ) (bs : List Bool) : (flipBit i bs).length = bs.length := by
  simp [flipBit]

theorem flipBit_append_left {a : List Bool} (b : List Bool) {i : ℕ} (h : i < a.length) :
    flipBit i (a ++ b) = flipBit i a ++ b := by
  rw [flipBit, flipBit, List.getD_append a b false i h, List.set_append_left i _ h]

theorem flipBit_append_right (a b : List Bool) (i : ℕ) :
    flipBit (a.length + i) (a ++ b) = a ++ flipBit i b := by
  rw [flipBit, flipBit, List.getD_append_right a b false (a.length + i) (by omega),
    List.set_append_right _ _ (by omega)]
  simp

set_option maxRecDepth 4000 in
/-- Flipping bit `i` of the 8-bit encoding of a byte changes the decoded
value by exactly `2 ^ (7 - i)`, up or down. -/
theorem byte_flip_delta : ∀ b < 256, ∀ i < 8,
    bitsToNat (flipBit i (natToBits 8 b)) + 2 ^ (7 - i) = b ∨
    bitsToNat (flipBit i (natToBits 8 b)) = b + 2 ^ (7 - i) := by decide

/-- Flipping one bit anywhere in the payload bit region changes the byte
sum of the decoded payload by a nonzero amount smaller than the checksum
modulus. -/
theorem bitsToBytes_flip_sum (p : List ℕ) :
    (∀ b ∈ p, b < 256) → ∀ i, i < 8 * p.length →
    ∃ d, 0 < d ∧ d ≤ 128 ∧
      ((bitsToBytes (flipBit i (bytesToBits p))).sum + d = p.sum ∨
       (bitsToBytes (flipBit i (bytesToBits p))).sum = p.sum + d) := by
  induction p with
  | nil => intro _ i hi; simp at hi
  | cons b tl ih =>
    intro hb i hi
    have hbl : b < 256 := hb b (by simp)
    have htl : ∀ x ∈ tl, x < 256 := fun x hx => hb x (by simp [hx])
    by_cases hi8 : i < 8
    · rw [bytesToBits_cons,
        flipBit_append_left _ (by rw [natToBits_length]; omega),
        bitsToBytes_cons8 _ (by rw [flipBit_length, natToBits_length]),
        bitsToBytes_bytesToBits tl htl]
      have hdle : (2:ℕ) ^ (7 - i) ≤ 128 := by
        calc (2:ℕ) ^ (7 - i) ≤ 2 ^ 7 := Nat.pow_le_pow_right (by norm_num) (by omega)
        _ = 128 := by norm_num
      refine ⟨2 ^ (7 - i), pow_pos (by norm_num) _, hdle, ?_⟩
      rcases byte_flip_delta b hbl i hi8 with h | h
      · left; simp [List.sum_cons]; omega
      · right; simp [List.sum_cons]; omega
    · obtain ⟨j, rfl⟩ : ∃ j, i = 8 + j := ⟨i - 8, by omega⟩
      rw [bytesToBits_cons,
        show (8:ℕ) + j = (natToBits 8 b).length + j from by rw [natToBits_length],
        flipBit_append_right,
        bitsToBytes_cons8 _ (natToBits_length 8 b), bitsToNat_natToBits,
        show (2:ℕ) ^ 8 = 256 from by norm_num, Nat.mod_eq_of_lt hbl]
      obtain ⟨d, hd0, hd1, hcase⟩ := ih htl j (by simp at hi; omega)
      refine ⟨d, hd0, hd1, ?_⟩
      rcases hcase with h | h
      · left; simp [List.sum_cons]; omega
      · right; simp [List.sum_cons]; omega

/-- C3: `frame` is deterministic and pure — byte-identical payloads give
byte-identical frame outputs (in this embedding `frame` is a function of
the payload alone, so there is no hidden state to depend on). -/
theorem frame_deterministic (p₁ p₂ : List ℕ) (h : p₁ = p₂) : frame p₁ = frame p₂ := by
  rw [h]

theorem frame_deterministic_witness : frame [1, 2, 3] = frame [1, 2, 3] :=
  frame_deterministic [1, 2, 3] [1, 2, 3] (by decide)

/-- C4: `frame` succeeds on every payload of length exactly `2^16 - 1`
(the maximum representable by the 16-bit Length field) and fails with
`PayloadTooLarge` on every longer payload. -/
theorem frame_boundary (p : List ℕ) :
    (p.length = maxPayloadLen → frame p = .ok (frameBits p)) ∧
    (maxPayloadLen < p.length → frame p = .error .PayloadTooLarge) := by
  constructor
  · intro h; rw [frame, if_pos (by omega)]
  · intro h; rw [frame, if_neg (by omega)]

theorem frame_boundary_witness :
    frame (List.replicate 65535 0) = .ok (frameBits (List.replicate 65535 0)) ∧
    frame (List.replicate 65536 0) = .error .PayloadTooLarge :=
  ⟨(frame_boundary _).1 (by rw [List.length_replicate]; rfl),
   (frame_boundary _).2 (by rw [List.length_replicate]; decide)⟩

/-- Truncated-frame behaviour: the checksum-mismatch claim fails when the
flipped bit lies in the Length field.  Flipping the least significant
Length bit of the frame of the empty payload makes the declared length 1,
so `deframe` runs out of bits and fails with `Truncated`, not
`ChecksumMismatch`. -/
theorem deframe_length_bitflip_truncated :
    deframe (flipBit 31 (frameBits [])) = .error .Truncated ∧
    DecodeError.Truncated ≠ DecodeError.ChecksumMismatch := by
  constructor
  · decide
  · decide

/-- C5 (amended): for a well-formed frame, flipping any single bit in the
payload region, holding length and checksum fixed, makes `deframe` fail
with `ChecksumMismatch`.  (Flips in the Length field need not produce
`ChecksumMismatch`: they can make the declared length exceed the available
bits, which fails with `Truncated` instead.) -/
theorem deframe_payload_bitflip (p : List ℕ) (i : ℕ) (hL : p.length ≤ maxPayloadLen)
    (hb : ∀ b ∈ p, b < 256) (hi : i < 8 * p.length) :
    deframe (flipBit (32 + i) (frameBits p)) = .error .ChecksumMismatch := by
  have hmax : p.length < 65536 := by simp [maxPayloadLen] at hL; omega
  have hgroup : frameBits p =
      preambleBits ++ (natToBits 16 p.length ++
        (bytesToBits p ++ natToBits 16 (checksumOf p.length p))) := by
    rw [frameBits, List.append_assoc, List.append_assoc]
  have hflip : flipBit (32 + i) (frameBits p) =
      preambleBits ++ (natToBits 16 p.length ++
        (flipBit i (bytesToBits p) ++ natToBits 16 (checksumOf p.length p))) := by
    rw [hgroup,
      show (32:ℕ) + i = preambleBits.length + (16 + i) from by rw [preambleBits_length]; omega,
      flipBit_append_right,
      show (16:ℕ) + i = (natToBits 16 p.length).length + i from by rw [natToBits_length],
      flipBit_append_right,
      flipBit_append_left _ (by rw [bytesToBits_length]; omega)]
  rw [hflip, deframe_concat _ _ _ p.length (natToBits_length _ _) (natToBits_length _ _)
    (by rw [flipBit_length, bytesToBits_length])
    (by rw [bitsToNat_natToBits]; exact Nat.mod_eq_of_lt (by norm_num; omega))]
  obtain ⟨d, hd0, hd1, hcase⟩ := bitsToBytes_flip_sum p hb i hi
  have hckv : checksumOf p.length p < 65536 := by
    rw [checksumOf]; exact Nat.mod_lt _ (by norm_num)
  have hne : bitsToNat (natToBits 16 (checksumOf p.length p)) ≠
      checksumOf p.length (bitsToBytes (flipBit i (bytesToBits p))) := by
    rw [bitsToNat_natToBits, show (2:ℕ) ^ 16 = 65536 from by norm_num,
      Nat.mod_eq_of_lt hckv, checksumOf, checksumOf,
      List.sum_append, List.sum_append]
    rcases hcase with h | h <;> omega
  rw [if_neg hne]

theorem deframe_payload_bitflip_witness :
    deframe (flipBit (32 + 0) (frameBits [0])) = .error .ChecksumMismatch :=
  deframe_payload_bitflip [0] 0 (by decide) (by decide) (by decide)

/-! ## WAV container (spec §4.4, §6) -/

/-- Little-endian 16-bit serialization of an unsigned value. -/
def le16 (v : ℕ) : List ℕ := [v % 256, v / 256 % 256]

/-- Little-endian 32-bit serialization of an unsigned value. -/
def le32 (v : ℕ) : List ℕ :=
  [v % 256, v / 256 % 256, v / 65536 % 256, v / 16777216 % 256]

/-- Little-endian 32-bit deserialization. -/
def rdLE32 : List ℕ → ℕ
  | a :: b :: c :: d :: _ => a + 256 * b + 65536 * c + 16777216 * d
  | [a, b, c] => a + 256 * b + 65536 * c
  | [a, b] => a + 256 * b
  | [a] => a
  | [] => 0

/-- Little-endian 16-bit deserialization. -/
def rdLE16 : List ℕ → ℕ
  | a :: b :: _ => a + 256 * b
  | [a] => a
  | [] => 0

/-- Two's-complement bytes of one signed 16-bit PCM sample
(little-endian). -/
def sampleBytes (s : ℤ) : List ℕ := le16 (s % 65536).toNat

/-- Decode one little-endian two's-complement 16-bit sample. -/
def sampleOfBytes (lo hi : ℕ) : ℤ :=
  if lo + 256 * hi < 32768 then (lo + 256 * hi : ℤ) else (lo + 256 * hi : ℤ) - 65536

/-- PCM samples to raw data-chunk bytes. -/
def pcmBytes (ss : List ℤ) : List ℕ := (ss.map sampleBytes).flatten

/-- Raw data-chunk bytes back to PCM samples (a trailing odd byte is
ignored; the reader rejects odd data sizes). -/
def bytesToSamples : List ℕ → List ℤ
  | lo :: hi :: rest => sampleOfBytes lo hi :: bytesToSamples rest
  | _ => []

/-- Modelled from the spec: the WAV container writer (spec §4.4, §6
binary layout): 16-bit mono PCM, RIFF/WAVE header with consistent derived
fields followed by the sample bytes; the writer is missing from the
sources. -/
def wavWrite (sr : ℕ) (ss : List ℤ) : List ℕ :=
  [82, 73, 70, 70] ++ (le32 (36 + 2 * ss.length) ++ ([87, 65, 86, 69] ++
  ([102, 109, 116, 32] ++ (le32 16 ++ (le16 1 ++ (le16 1 ++ (le32 sr ++
  (le32 (sr * 2) ++ (le16 2 ++ (le16 16 ++ ([100, 97, 116, 97] ++
  (le32 (2 * ss.length) ++ pcmBytes ss))))))))))))

/-- `true` iff all four magic markers ("RIFF", "WAVE", "fmt ", "data")
are intact. -/
def wavMagicOk (bs : List ℕ) : Bool :=
  bs.take 4 == [82, 73, 70, 70] && (bs.drop 8).take 4 == [87, 65, 86, 69] &&
  (bs.drop 12).take 4 == [102, 109, 116, 32] && (bs.drop 36).take 4 == [100, 97, 116, 97]

/-- The declared size of the data chunk (the 32-bit field at offset 40). -/
def wavDataSize (bs : List ℕ) : ℕ := rdLE32 (bs.drop 40)

/-- Modelled from the spec: the WAV container reader (spec §4.4): header
validation (magic markers, supported format, consistent derived fields)
and extraction of the sample rate and PCM samples.  Fails with
`InvalidContainer` on magic mismatch or inconsistent derived fields,
`TruncatedContainer` if the buffer is shorter than a header or the
declared data length exceeds the available bytes, `UnsupportedFormat` on
an unsupported audio format, bit depth or channel count; the reader is
missing from the sources. -/
def wavRead (bs : List ℕ) : Except DecodeError (ℕ × List ℤ) :=
  if bs.length < 44 then .error .TruncatedContainer
  else if ¬ wavMagicOk bs then .error .InvalidContainer
  else if bs.length - 44 < wavDataSize bs then .error .TruncatedContainer
  else if ¬ (rdLE16 (bs.drop 20) = 1 ∧ rdLE16 (bs.drop 22) = 1 ∧ rdLE16 (bs.drop 34) = 16)
    then .error .UnsupportedFormat
  else if ¬ (rdLE32 (bs.drop 16) = 16 ∧ rdLE32 (bs.drop 4) = 36 + wavDataSize bs ∧
             rdLE32 (bs.drop 28) = rdLE32 (bs.drop 24) * 2 ∧ rdLE16 (bs.drop 32) = 2 ∧
             wavDataSize bs % 2 = 0)
    then .error .InvalidContainer
  else .ok (rdLE32 (bs.drop 24), bytesToSamples ((bs.drop 44).take (wavDataSize bs)))

theorem pcmBytes_cons (s : ℤ) (ss : List ℤ) :
    pcmBytes (s :: ss) = sampleBytes s ++ pcmBytes ss := by
  simp [pcmBytes]

theorem pcmBytes_length (ss : List ℤ) : (pcmBytes ss).length = 2 * ss.length := by
  induction ss with
  | nil => rfl
  | cons s ss ih =>
    rw [pcmBytes_cons, List.length_append, ih, List.length_cons,
      show (sampleBytes s).length = 2 from rfl]
    omega

theorem sampleOfBytes_sampleBytes (s : ℤ) (h1 : -32768 ≤ s) (h2 : s < 32768) :
    sampleOfBytes ((s % 65536).toNat % 256) ((s % 65536).toNat / 256 % 256) = s := by
  have h0 : (0:ℤ) ≤ s % 65536 := Int.emod_nonneg s (by norm_num)
  have h3 : s % 65536 < 65536 := Int.emod_lt_of_pos s (by norm_num)
  have h4 : ((s % 65536).toNat : ℤ) = s % 65536 := Int.toNat_of_nonneg h0
  have h5 : s % 65536 = s ∨ s % 65536 = s + 65536 := by omega
  rw [sampleOfBytes]
  split <;> push_cast <;> omega

theorem bytesToSamples_pcmBytes (ss : List ℤ)
    (hb : ∀ s ∈ ss, -32768 ≤ s ∧ s < 32768) :
    bytesToSamples (pcmBytes ss) = ss := by
  induction ss with
  | nil => rfl
  | cons s ss ih =>
    obtain ⟨hs1, hs2⟩ := hb s (by simp)
    rw [pcmBytes_cons,
      show sampleBytes s ++ pcmBytes ss =
        (s % 65536).toNat % 256 :: ((s % 65536).toNat / 256 % 256 :: pcmBytes ss) from by
          simp [sampleBytes, le16],
      bytesToSamples, sampleOfBytes_sampleBytes s hs1 hs2,
      ih (fun x hx => hb x (by simp [hx]))]

theorem wavWrite_length (ss : List ℤ) :
    (wavWrite 44100 ss).length = 44 + 2 * ss.length := by
  simp [wavWrite, le32, le16, pcmBytes_length]
  omega

theorem wavWrite_magicOk (ss : List ℤ) : wavMagicOk (wavWrite 44100 ss) = true := by
  simp [wavWrite, wavMagicOk, le32, le16]

theorem wavWrite_dataSize (ss : List ℤ) (hn : ss.length ≤ 1073741823) :
    wavDataSize (wavWrite 44100 ss) = 2 * ss.length := by
  simp [wavWrite, wavDataSize, le32, le16, rdLE32]
  omega

theorem wavRead_wavWrite (ss : List ℤ)
    (hb : ∀ s ∈ ss, -32768 ≤ s ∧ s < 32768) (hn : ss.length ≤ 1073741823) :
    wavRead (wavWrite 44100 ss) = .ok (44100, ss) := by
  have h20 : rdLE16 ((wavWrite 44100 ss).drop 20) = 1 := by
    simp [wavWrite, le32, le16, rdLE16]
  have h22 : rdLE16 ((wavWrite 44100 ss).drop 22) = 1 := by
    simp [wavWrite, le32, le16, rdLE16]
  have h34 : rdLE16 ((wavWrite 44100 ss).drop 34) = 16 := by
    simp [wavWrite, le32, le16, rdLE16]
  have h32 : rdLE16 ((wavWrite 44100 ss).drop 32) = 2 := by
    simp [wavWrite, le32, le16, rdLE16]
  have h16 : rdLE32 ((wavWrite 44100 ss).drop 16) = 16 := by
    simp [wavWrite, le32, le16, rdLE32]
  have h24 : rdLE32 ((wavWrite 44100 ss).drop 24) = 44100 := by
    simp [wavWrite, le32, le16, rdLE32]
  have h28 : rdLE32 ((wavWrite 44100 ss).drop 28) = 88200 := by
    simp [wavWrite, le32, le16, rdLE32]
  have h4 : rdLE32 ((wavWrite 44100 ss).drop 4) = 36 + 2 * ss.length := by
    simp [wavWrite, le32, le16, rdLE32]
    omega
  have h44 : (wavWrite 44100 ss).drop 44 = pcmBytes ss := by
    simp [wavWrite, le32, le16]
  have htake : (pcmBytes ss).take (2 * ss.length) = pcmBytes ss :=
    List.take_of_length_le (by rw [pcmBytes_length])
  rw [wavRead, wavWrite_length, wavWrite_dataSize ss hn]
  rw [if_neg (by omega)]
  rw [if_neg (by simp [wavWrite_magicOk])]
  rw [if_neg (by omega)]
  rw [if_neg (by simp [h20, h22, h34])]
  rw [if_neg (by simp [h16, h4, h28, h24, h32])]
  rw [h24, h44, htake, bytesToSamples_pcmBytes ss hb]

/-- A buffer with both defects at once: all four magic markers corrupted
and the declared data size exceeding the available bytes.  The reader
returns `InvalidContainer`, so the claim's unconditional
`TruncatedContainer` clause is false as stated. -/
theorem wavRead_magic_and_truncation_conflict :
    wavDataSize (List.replicate 40 0 ++ [1, 0, 0, 0]) = 1 ∧
    (List.replicate 40 0 ++ [1, 0, 0, 0]).length = 44 ∧
    wavMagicOk (List.replicate 40 0 ++ [1, 0, 0, 0]) = false ∧
    wavRead (List.replicate 40 0 ++ [1, 0, 0, 0]) = .error .InvalidContainer ∧
    (Except.error DecodeError.InvalidContainer : Except DecodeError (ℕ × List ℤ)) ≠
      .error .TruncatedContainer := by
  refine ⟨by decide, by decide, by decide, by decide, by decide⟩

/-- C6 (amended): on any buffer holding at least a full 44-byte header,
corrupted magic markers fail with `InvalidContainer`; and with intact
magic markers, a declared data size exceeding the available bytes fails
with `TruncatedContainer`.  (The two clauses cannot both be unconditional:
on a buffer with both defects the reader reports `InvalidContainer`.)
In both cases no PCM samples are returned. -/
theorem wavRead_container_validation (bs : List ℕ) :
    (44 ≤ bs.length → wavMagicOk bs = false → wavRead bs = .error .InvalidContainer) ∧
    (44 ≤ bs.length → wavMagicOk bs = true → bs.length - 44 < wavDataSize bs →
      wavRead bs = .error .TruncatedContainer) := by
  constructor
  · intro hl hm
    rw [wavRead, if_neg (by omega), if_pos (by simp [hm])]
  · intro hl hm hd
    rw [wavRead, if_neg (by omega), if_neg (by simp [hm]), if_pos hd]

theorem wavRead_container_validation_witness :
    wavRead (List.replicate 44 0) = .error .InvalidContainer ∧
    wavRead ([82, 73, 70, 70, 0, 0, 0, 0, 87, 65, 86, 69, 102, 109, 116, 32] ++
      List.replicate 20 0 ++ [100, 97, 116, 97, 1, 0, 0, 0]) =
      .error .TruncatedContainer :=
  ⟨(wavRead_container_validation _).1 (by decide) (by decide),
   (wavRead_container_validation _).2 (by decide) (by decide) (by decide)⟩

/-! ## FSK line code, waveform synthesis, detection and demodulation
(spec §4.2, §4.3, §4.5) -/

/-- One transmitted unit (spec §3): a tone frequency in Hz and a duration
in samples. -/
structure Symbol where
  freq : ℕ
  duration : ℕ
deriving DecidableEq

/-- Fixed sample rate in Hz. -/
def sampleRate : ℕ := 44100

/-- Fixed symbol duration in samples (baud rate 100 Sym/s at 44100 Hz). -/
def samplesPerSymbol : ℕ := 441

/-- Tone frequency for bit 0, in Hz (10 cycles per symbol window). -/
def toneFreq0 : ℕ := 1000

/-- Tone frequency for bit 1, in Hz (20 cycles per symbol window). -/
def toneFreq1 : ℕ := 2000

/-- Synthesis amplitude scalar, within the signed 16-bit sample range. -/
noncomputable def amplitude : ℝ := 10000

/-- Detection threshold separating silence/noise from signal (spec §4.5). -/
def noiseThreshold : ℤ := 100

/-- Modelled from the spec: the line encoder (spec §4.2): binary FSK,
bit 0 to tone `toneFreq0`, bit 1 to tone `toneFreq1`, fixed symbol
duration, one-to-one and order-preserving; the line encoder is missing
from the sources. -/
def encodeLine (bits : List Bool) : List Symbol :=
  bits.map (fun b => ⟨if b then toneFreq1 else toneFreq0, samplesPerSymbol⟩)

/-- Ideal amplitude of sample `n` of a tone at frequency `f` Hz
(cosine phase; both tones complete an integer number of cycles per symbol
window, so consecutive windows are phase-continuous, spec §4.3). -/
noncomputable def toneSample (f n : ℕ) : ℝ :=
  amplitude * Real.cos (2 * Real.pi * f * n / sampleRate)

/-- Round one sample to the nearest integer and clamp it to the signed
16-bit range (spec §4.3: bit depth 16). -/
noncomputable def quantize (x : ℝ) : ℤ :=
  max (-32768) (min 32767 ⌊x + 1 / 2⌋)

/-- Modelled from the spec: the waveform synthesizer (spec §4.3) for one
symbol: `duration` samples of its tone, quantized to 16-bit depth; the
synthesizer is missing from the sources. -/
noncomputable def renderSymbol (sym : Symbol) : List ℤ :=
  (List.range sym.duration).map (fun n => quantize (toneSample sym.freq n))

/-- Modelled from the spec: the waveform synthesizer (spec §4.3): renders
a symbol sequence into a PCM sample buffer; missing from the sources. -/
noncomputable def synthesize (syms : List Symbol) : List ℤ :=
  (syms.map renderSymbol).flatten

/-- Goertzel-style single-frequency correlation of one symbol window at
frequency `f` (spec §4.2). -/
noncomputable def corr (f : ℕ) (w : List ℤ) : ℂ :=
  ∑ n ∈ Finset.range samplesPerSymbol,
    ((w.getD n 0 : ℤ) : ℂ) *
      Complex.exp (-(2 * Real.pi * f * n / sampleRate : ℝ) * Complex.I)

/-- Correlated energy of one symbol window at frequency `f`. -/
noncomputable def energy (f : ℕ) (w : List ℤ) : ℝ := ‖corr f w‖ ^ 2

/-- Modelled from the spec: per-symbol classification (spec §4.2): the
bit decodes to whichever tone has the higher correlated energy; an exact
tie is `AmbiguousSymbol`; the demodulator is missing from the sources. -/
noncomputable def demodBit (w : List ℤ) : Except DecodeError Bool :=
  if energy toneFreq0 w < energy toneFreq1 w then .ok true
  else if energy toneFreq1 w < energy toneFreq0 w then .ok false
  else .error .AmbiguousSymbol

/-- Modelled from the spec: the demodulator (spec §4.2): classifies
consecutive symbol windows from a locked timing reference; a trailing
partial window is ignored; missing from the sources. -/
noncomputable def demodulate (s : List ℤ) : Except DecodeError (List Bool) :=
  if h : s.length < samplesPerSymbol then .ok []
  else do
    let b ← demodBit (s.take samplesPerSymbol)
    let rest ← demodulate (s.drop samplesPerSymbol)
    pure (b :: rest)
termination_by s.length
decreasing_by simp [samplesPerSymbol] at h ⊢; omega

/-- Modelled from the spec: the signal detector (spec §4.5): the start
offset is the first sample whose magnitude exceeds the noise threshold;
`none` (`NotFound`) when the whole buffer stays below the threshold;
missing from the sources. -/
def findStart (s : List ℤ) : Option ℕ :=
  s.findIdx? (fun x => decide (noiseThreshold < |x|))

/-- Modelled from the spec: decode of a PCM buffer (spec §2, decode data
flow): signal detection (timing lock), demodulation, deframing; missing
from the sources. -/
noncomputable def decodePcm (s : List ℤ) : Except DecodeError (List ℕ) :=
  match findStart s with
  | none => .error .NotFound
  | some i => (demodulate (s.drop i)).bind deframe

/-- Modelled from the spec: encode pipeline up to PCM (spec §2, encode
data flow): framer, line encoder, synthesizer. -/
noncomputable def encodePcm (p : List ℕ) : List ℤ :=
  synthesize (encodeLine (frameBits p))

/-- Modelled from the spec: full encode to WAV bytes (spec §2). -/
noncomputable def encodeWav (p : List ℕ) : List ℕ :=
  wavWrite sampleRate (encodePcm p)

/-- Modelled from the spec: full decode from WAV bytes (spec §2). -/
noncomputable def decodeWav (bs : List ℕ) : Except DecodeError (List ℕ) :=
  (wavRead bs).bind (fun pr => decodePcm pr.2)

/-! ### Orthogonality of the two tones over one symbol window

Both tones complete an integer number of cycles per 441-sample window
(10 cycles for 1000 Hz, 20 for 2000 Hz at 44100 Hz), so the two
correlations are geometric sums of 441st roots of unity. -/

theorem two_pi_I_ne_zero : (2 * (Real.pi : ℂ) * Complex.I) ≠ 0 :=
  mul_ne_zero (mul_ne_zero two_ne_zero
    (Complex.ofReal_ne_zero.mpr Real.pi_ne_zero)) Complex.I_ne_zero

theorem exp_unit_pow (d : ℤ) :
    Complex.exp (2 * Real.pi * Complex.I * d / 441) ^ 441 = 1 := by
  rw [← Complex.exp_nat_mul]
  have h : (441 : ℂ) * (2 * Real.pi * Complex.I * d / 441) =
      (d : ℂ) * (2 * Real.pi * Complex.I) := by
    field_simp
    ring
  rw [show ((441 : ℕ) : ℂ) = (441 : ℂ) from by norm_num, h,
    Complex.exp_int_mul_two_pi_mul_I]

theorem exp_unit_ne_one (d : ℤ) (hd : ¬ (441:ℤ) ∣ d) :
    Complex.exp (2 * Real.pi * Complex.I * d / 441) ≠ 1 := by
  intro h
  obtain ⟨n, hn⟩ := Complex.exp_eq_one_iff.mp h
  apply hd
  refine ⟨n, ?_⟩
  have h441 : (441 : ℂ) ≠ 0 := by norm_num
  have h1 : (2 * Real.pi * Complex.I * d / 441) * 441 =
      n * (2 * Real.pi * Complex.I) * 441 := by rw [hn]
  rw [div_mul_cancel₀ _ h441] at h1
  have key : (2 * (Real.pi : ℂ) * Complex.I) * (d : ℂ) =
      (2 * (Real.pi : ℂ) * Complex.I) * (441 * n) := by linear_combination h1
  have hdc : (d : ℂ) = 441 * n := mul_left_cancel₀ two_pi_I_ne_zero key
  exact_mod_cast hdc

theorem sum_exp_unit (d : ℤ) (hd : ¬ (441:ℤ) ∣ d) :
    ∑ n ∈ Finset.range 441,
      Complex.exp (2 * Real.pi * Complex.I * d / 441) ^ n = 0 := by
  rw [geom_sum_eq (exp_unit_ne_one d hd), exp_unit_pow d]
  simp

theorem ideal_corr (cf cm : ℕ)
    (hsub : cf = cm ∨ ¬ ((441:ℤ) ∣ ((cf:ℤ) - cm)))
    (hadd : ¬ ((441:ℤ) ∣ ((cf:ℤ) + cm))) :
    ∑ n ∈ Finset.range 441,
      ((Real.cos (2 * Real.pi * cf * n / 441) : ℂ) *
        Complex.exp (-(2 * Real.pi * cm * n / 441 : ℝ) * Complex.I))
      = if cf = cm then (441 : ℂ) / 2 else 0 := by
  have term : ∀ n ∈ Finset.range 441,
      ((Real.cos (2 * Real.pi * cf * n / 441) : ℂ) *
        Complex.exp (-(2 * Real.pi * cm * n / 441 : ℝ) * Complex.I))
      = (Complex.exp (2 * Real.pi * Complex.I * (((cf:ℤ) - cm : ℤ) : ℂ) / 441) ^ n +
         Complex.exp (2 * Real.pi * Complex.I * ((-((cf:ℤ) + cm) : ℤ) : ℂ) / 441) ^ n) / 2 := by
    intro n _
    have hcos : Complex.cos ((2 * Real.pi * cf * n / 441 : ℝ) : ℂ) =
        (Complex.exp (((2 * Real.pi * cf * n / 441 : ℝ) : ℂ) * Complex.I) +
         Complex.exp (-((2 * Real.pi * cf * n / 441 : ℝ) : ℂ) * Complex.I)) / 2 := rfl
    rw [Complex.ofReal_cos, hcos, div_mul_eq_mul_div, add_mul,
      ← Complex.exp_add, ← Complex.exp_add,
      ← Complex.exp_nat_mul, ← Complex.exp_nat_mul]
    congr 2
    · push_cast
      ring
    · push_cast
      ring
  rw [Finset.sum_congr rfl term, ← Finset.sum_div, Finset.sum_add_distrib]
  by_cases hcf : cf = cm
  · subst hcf
    rw [if_pos rfl]
    have hz : (((cf:ℤ) - cf : ℤ) : ℂ) = 0 := by push_cast; ring
    rw [hz, sum_exp_unit (-((cf:ℤ) + cf)) (by rw [Int.dvd_neg]; exact hadd)]
    simp
  · rw [if_neg hcf,
      sum_exp_unit ((cf:ℤ) - cm) (hsub.resolve_left hcf),
      sum_exp_unit (-((cf:ℤ) + cm)) (by rw [Int.dvd_neg]; exact hadd)]
    simp

/-! ### Quantization error bound and per-window classification -/

theorem quantize_bounds (x : ℝ) : -32768 ≤ quantize x ∧ quantize x < 32768 := by
  rw [quantize]
  refine ⟨le_max_left _ _, ?_⟩
  have h := max_le (show (-32768:ℤ) ≤ 32767 by norm_num) (min_le_left 32767 ⌊x + 1 / 2⌋)
  omega

theorem toneSample_abs (f n : ℕ) : |toneSample f n| ≤ 10000 := by
  rw [toneSample, abs_mul]
  have h1 : |amplitude| = 10000 := by rw [amplitude]; norm_num
  have h2 : |Real.cos (2 * Real.pi * f * n / sampleRate)| ≤ 1 := Real.abs_cos_le_one _
  rw [h1]
  nlinarith [abs_nonneg (Real.cos (2 * Real.pi * f * n / sampleRate))]

theorem quantize_close (x : ℝ) (h : |x| ≤ 10000) : |(quantize x : ℝ) - x| ≤ 1 / 2 := by
  obtain ⟨hl, hr⟩ := abs_le.mp h
  have h1 : (⌊x + 1 / 2⌋ : ℝ) ≤ x + 1 / 2 := Int.floor_le _
  have h2 : x + 1 / 2 - 1 < (⌊x + 1 / 2⌋ : ℝ) := Int.sub_one_lt_floor _
  have hfl : (-10000 : ℤ) ≤ ⌊x + 1 / 2⌋ := Int.le_floor.mpr (by push_cast; linarith)
  have hfr : ⌊x + 1 / 2⌋ ≤ 10001 := by
    have : (⌊x + 1 / 2⌋ : ℝ) ≤ 10001 := by linarith
    exact_mod_cast this
  have hq : quantize x = ⌊x + 1 / 2⌋ := by
    rw [quantize, min_eq_right (by omega), max_eq_right (by omega)]
  rw [hq]
  rw [abs_le]
  constructor <;> linarith

theorem renderSymbol_getD (f n : ℕ) (h : n < 441) :
    (renderSymbol ⟨f, 441⟩).getD n 0 = quantize (toneSample f n) := by
  simp [renderSymbol, List.getD, h]

theorem norm_exp_corr (θ : ℝ) : ‖Complex.exp (-(θ : ℂ) * Complex.I)‖ = 1 := by
  rw [Complex.norm_eq_abs, Complex.abs_exp]
  simp

theorem angle_cycles (f c n : ℕ) (h : f = 100 * c) :
    (2 * Real.pi * f * n / sampleRate : ℝ) = 2 * Real.pi * c * n / 441 := by
  subst h
  rw [sampleRate]
  push_cast
  field_simp
  ring

theorem corr_render_split (f m : ℕ) :
    corr m (renderSymbol ⟨f, samplesPerSymbol⟩) =
      (∑ n ∈ Finset.range 441, ((toneSample f n : ℝ) : ℂ) *
        Complex.exp (-(2 * Real.pi * m * n / sampleRate : ℝ) * Complex.I)) +
      ∑ n ∈ Finset.range 441,
        (((quantize (toneSample f n) : ℝ) - toneSample f n : ℝ) : ℂ) *
          Complex.exp (-(2 * Real.pi * m * n / sampleRate : ℝ) * Complex.I) := by
  rw [corr, show samplesPerSymbol = 441 from rfl, ← Finset.sum_add_distrib]
  refine Finset.sum_congr rfl fun n hn => ?_
  rw [renderSymbol_getD f n (Finset.mem_range.mp hn)]
  push_cast
  ring

theorem err_sum_bound (f m : ℕ) :
    ‖∑ n ∈ Finset.range 441,
        (((quantize (toneSample f n) : ℝ) - toneSample f n : ℝ) : ℂ) *
          Complex.exp (-(2 * Real.pi * m * n / sampleRate : ℝ) * Complex.I)‖ ≤ 441 / 2 := by
  calc ‖∑ n ∈ Finset.range 441,
        (((quantize (toneSample f n) : ℝ) - toneSample f n : ℝ) : ℂ) *
          Complex.exp (-(2 * Real.pi * m * n / sampleRate : ℝ) * Complex.I)‖
      ≤ ∑ n ∈ Finset.range 441,
          ‖(((quantize (toneSample f n) : ℝ) - toneSample f n : ℝ) : ℂ) *
            Complex.exp (-(2 * Real.pi * m * n / sampleRate : ℝ) * Complex.I)‖ :=
        norm_sum_le _ _
    _ ≤ ∑ _n ∈ Finset.range 441, (1 / 2 : ℝ) := by
        refine Finset.sum_le_sum fun n _ => ?_
        rw [norm_mul, norm_exp_corr, mul_one, Complex.norm_eq_abs, Complex.abs_ofReal]
        exact quantize_close (toneSample f n) (toneSample_abs f n)
    _ = 441 / 2 := by simp; norm_num

theorem ideal_sum (f m cf cm : ℕ) (hf : f = 100 * cf) (hm : m = 100 * cm)
    (hsub : cf = cm ∨ ¬ ((441:ℤ) ∣ ((cf:ℤ) - cm)))
    (hadd : ¬ ((441:ℤ) ∣ ((cf:ℤ) + cm))) :
    ∑ n ∈ Finset.range 441, ((toneSample f n : ℝ) : ℂ) *
        Complex.exp (-(2 * Real.pi * m * n / sampleRate : ℝ) * Complex.I)
      = (amplitude : ℂ) * (if cf = cm then (441 : ℂ) / 2 else 0) := by
  have hstep : ∀ n ∈ Finset.range 441,
      ((toneSample f n : ℝ) : ℂ) *
        Complex.exp (-(2 * Real.pi * m * n / sampleRate : ℝ) * Complex.I)
      = (amplitude : ℂ) * ((Real.cos (2 * Real.pi * cf * n / 441) : ℂ) *
          Complex.exp (-(2 * Real.pi * cm * n / 441 : ℝ) * Complex.I)) := by
    intro n _
    rw [toneSample, angle_cycles f cf n hf, angle_cycles m cm n hm]
    push_cast
    ring
  rw [Finset.sum_congr rfl hstep, ← Finset.mul_sum,
    ideal_corr cf cm hsub hadd]

theorem norm_amp_half : ‖(amplitude : ℂ) * ((441 : ℂ) / 2)‖ = 10000 * (441 / 2) := by
  rw [norm_mul]
  have h1 : ‖(amplitude : ℂ)‖ = 10000 := by
    rw [Complex.norm_eq_abs, Complex.abs_ofReal, amplitude]
    norm_num
  have h2 : ‖((441 : ℂ) / 2)‖ = 441 / 2 := by
    rw [show ((441 : ℂ) / 2) = (((441 / 2 : ℝ)) : ℂ) from by norm_num,
      Complex.norm_eq_abs, Complex.abs_ofReal]
    norm_num
  rw [h1, h2]

theorem corr_render_matched (f m cf cm : ℕ) (hf : f = 100 * cf) (hm : m = 100 * cm)
    (heq : cf = cm) (hadd : ¬ ((441:ℤ) ∣ ((cf:ℤ) + cm))) :
    441 * 9999 / 2 ≤ ‖corr m (renderSymbol ⟨f, samplesPerSymbol⟩)‖ := by
  rw [corr_render_split f m, ideal_sum f m cf cm hf hm (Or.inl heq) hadd, if_pos heq]
  have herr := err_sum_bound f m
  have h3 : ‖(amplitude : ℂ) * ((441 : ℂ) / 2)‖ ≤
      ‖(amplitude : ℂ) * ((441 : ℂ) / 2) +
        ∑ n ∈ Finset.range 441,
          (((quantize (toneSample f n) : ℝ) - toneSample f n : ℝ) : ℂ) *
            Complex.exp (-(2 * Real.pi * m * n / sampleRate : ℝ) * Complex.I)‖ +
      ‖∑ n ∈ Finset.range 441,
          (((quantize (toneSample f n) : ℝ) - toneSample f n : ℝ) : ℂ) *
            Complex.exp (-(2 * Real.pi * m * n / sampleRate : ℝ) * Complex.I)‖ := by
    calc ‖(amplitude : ℂ) * ((441 : ℂ) / 2)‖
        = ‖((amplitude : ℂ) * ((441 : ℂ) / 2) +
            ∑ n ∈ Finset.range 441,
              (((quantize (toneSample f n) : ℝ) - toneSample f n : ℝ) : ℂ) *
                Complex.exp (-(2 * Real.pi * m * n / sampleRate : ℝ) * Complex.I)) +
            -(∑ n ∈ Finset.range 441,
              (((quantize (toneSample f n) : ℝ) - toneSample f n : ℝ) : ℂ) *
                Complex.exp (-(2 * Real.pi * m * n / sampleRate : ℝ) * Complex.I))‖ := by
          congr 1
          ring
      _ ≤ _ := by
          refine le_trans (norm_add_le _ _) ?_
          rw [norm_neg]
  rw [norm_amp_half] at h3
  linarith

theorem corr_render_unmatched (f m cf cm : ℕ) (hf : f = 100 * cf) (hm : m = 100 * cm)
    (hne : cf ≠ cm) (hsub : ¬ ((441:ℤ) ∣ ((cf:ℤ) - cm)))
    (hadd : ¬ ((441:ℤ) ∣ ((cf:ℤ) + cm))) :
    ‖corr m (renderSymbol ⟨f, samplesPerSymbol⟩)‖ ≤ 441 / 2 := by
  rw [corr_render_split f m, ideal_sum f m cf cm hf hm (Or.inr hsub) hadd, if_neg hne,
    mul_zero, zero_add]
  exact err_sum_bound f m

theorem demodBit_render (b : Bool) :
    demodBit (renderSymbol ⟨if b then toneFreq1 else toneFreq0, samplesPerSymbol⟩) =
      .ok b := by
  have hgap : ((441 : ℝ) / 2) ^ 2 < (441 * 9999 / 2) ^ 2 := by norm_num
  cases b
  · show demodBit (renderSymbol ⟨toneFreq0, samplesPerSymbol⟩) = .ok false
    have hm := corr_render_matched toneFreq0 toneFreq0 10 10 (by decide) (by decide) rfl
      (by omega)
    have hu := corr_render_unmatched toneFreq0 toneFreq1 10 20 (by decide) (by decide)
      (by omega) (by omega) (by omega)
    have e0 : (441 * 9999 / 2 : ℝ) ^ 2 ≤ energy toneFreq0 (renderSymbol ⟨toneFreq0, samplesPerSymbol⟩) := by
      rw [energy]
      exact pow_le_pow_left (by positivity) hm 2
    have e1 : energy toneFreq1 (renderSymbol ⟨toneFreq0, samplesPerSymbol⟩) ≤ ((441 : ℝ) / 2) ^ 2 := by
      rw [energy]
      exact pow_le_pow_left (norm_nonneg _) hu 2
    have hlt : energy toneFreq1 (renderSymbol ⟨toneFreq0, samplesPerSymbol⟩) <
        energy toneFreq0 (renderSymbol ⟨toneFreq0, samplesPerSymbol⟩) := by linarith
    rw [demodBit, if_neg (lt_asymm hlt), if_pos hlt]
  · show demodBit (renderSymbol ⟨toneFreq1, samplesPerSymbol⟩) = .ok true
    have hm := corr_render_matched toneFreq1 toneFreq1 20 20 (by decide) (by decide) rfl
      (by omega)
    have hu := corr_render_unmatched toneFreq1 toneFreq0 20 10 (by decide) (by decide)
      (by omega) (by omega) (by omega)
    have e1 : (441 * 9999 / 2 : ℝ) ^ 2 ≤ energy toneFreq1 (renderSymbol ⟨toneFreq1, samplesPerSymbol⟩) := by
      rw [energy]
      exact pow_le_pow_left (by positivity) hm 2
    have e0 : energy toneFreq0 (renderSymbol ⟨toneFreq1, samplesPerSymbol⟩) ≤ ((441 : ℝ) / 2) ^ 2 := by
      rw [energy]
      exact pow_le_pow_left (norm_nonneg _) hu 2
    have hlt : energy toneFreq0 (renderSymbol ⟨toneFreq1, samplesPerSymbol⟩) <
        energy toneFreq1 (renderSymbol ⟨toneFreq1, samplesPerSymbol⟩) := by linarith
    rw [demodBit, if_pos hlt]

/-! ### Demodulating a synthesized signal, and signal detection -/

theorem synthesize_nil : synthesize [] = [] := by simp [synthesize]

theorem synthesize_cons (sym : Symbol) (syms : List Symbol) :
    synthesize (sym :: syms) = renderSymbol sym ++ synthesize syms := by
  simp [synthesize]

theorem renderSymbol_length (sym : Symbol) :
    (renderSymbol sym).length = sym.duration := by
  simp [renderSymbol]

theorem demodulate_short (s : List ℤ) (h : s.length < samplesPerSymbol) :
    demodulate s = .ok [] := by
  rw [demodulate, dif_pos h]

theorem demodulate_append (w rest : List ℤ) (hw : w.length = samplesPerSymbol) (b : Bool)
    (hb : demodBit w = .ok b) :
    demodulate (w ++ rest) = (demodulate rest).map (fun bs => b :: bs) := by
  rw [demodulate,
    dif_neg (by rw [List.length_append, hw]; simp [samplesPerSymbol]),
    List.take_left' hw, List.drop_left' hw, hb]
  cases hdr : demodulate rest <;> simp only [hdr, Except.map] <;> rfl

theorem demodulate_synthesize (bits : List Bool) :
    demodulate (synthesize (encodeLine bits)) = .ok bits := by
  induction bits with
  | nil =>
    rw [show encodeLine [] = [] from rfl, synthesize_nil]
    exact demodulate_short [] (by simp [samplesPerSymbol])
  | cons b bs ih =>
    rw [show encodeLine (b :: bs) =
          (⟨if b then toneFreq1 else toneFreq0, samplesPerSymbol⟩ : Symbol) ::
            encodeLine bs from rfl,
      synthesize_cons,
      demodulate_append _ _ (by rw [renderSymbol_length]) b (demodBit_render b), ih]
    rfl

theorem findStart_prepend (pre s : List ℤ) (hpre : ∀ x ∈ pre, |x| ≤ noiseThreshold) :
    findStart (pre ++ s) = (findStart s).map (fun i => pre.length + i) := by
  induction pre with
  | nil => cases h : findStart s <;> simp [h]
  | cons x pre ih =>
    have h1 : ¬ (noiseThreshold < |x|) := not_lt.mpr (hpre x (by simp))
    have htl : ∀ y ∈ pre, |y| ≤ noiseThreshold := fun y hy => hpre y (by simp [hy])
    rw [List.cons_append, findStart, List.findIdx?_cons]
    rw [show (decide (noiseThreshold < |x|)) = false from by simp [h1]]
    simp only [Bool.false_eq_true, if_false]
    rw [List.findIdx?_succ]
    rw [show List.findIdx? (fun y => decide (noiseThreshold < |y|)) (pre ++ s) =
          findStart (pre ++ s) from rfl, ih htl]
    cases h : findStart s <;> simp [h] <;> omega

theorem frameBits_head (p : List ℕ) : ∃ tl, frameBits p = true :: tl := by
  rw [frameBits]
  exact ⟨_, rfl⟩

theorem toneSample_zero (f : ℕ) : toneSample f 0 = 10000 := by
  simp [toneSample, amplitude]

theorem quantize_const_10000 : quantize 10000 = 10000 := by
  have hfl : ⌊(10000 : ℝ) + 1 / 2⌋ = 10000 := by
    rw [show ((10000:ℝ) + 1 / 2) = ((10000:ℤ):ℝ) + 1 / 2 from by norm_num,
      Int.floor_int_add,
      show ⌊(1 / 2 : ℝ)⌋ = 0 from by
        rw [Int.floor_eq_zero_iff]
        constructor <;> norm_num]
    norm_num
  rw [quantize, hfl]
  decide

theorem encodePcm_cons (p : List ℕ) : ∃ t, encodePcm p = 10000 :: t := by
  obtain ⟨tl, htl⟩ := frameBits_head p
  have hr : renderSymbol ⟨toneFreq1, samplesPerSymbol⟩ =
      quantize (toneSample toneFreq1 0) ::
        (List.range 440).map (fun n => quantize (toneSample toneFreq1 (n + 1))) := by
    rw [renderSymbol,
      show (Symbol.mk toneFreq1 samplesPerSymbol).duration = 441 from rfl,
      show (Symbol.mk toneFreq1 samplesPerSymbol).freq = toneFreq1 from rfl,
      List.range_succ_eq_map]
    simp [Function.comp_def]
  rw [encodePcm, htl,
    show encodeLine (true :: tl) =
      (⟨toneFreq1, samplesPerSymbol⟩ : Symbol) :: encodeLine tl from rfl,
    synthesize_cons, hr, toneSample_zero, quantize_const_10000]
  exact ⟨_, List.cons_append _ _ _⟩

theorem findStart_encodePcm (p : List ℕ) : findStart (encodePcm p) = some 0 := by
  obtain ⟨t, ht⟩ := encodePcm_cons p
  rw [ht, findStart, List.findIdx?_cons]
  norm_num [noiseThreshold]

theorem except_bind_ok {α β : Type} (x : α) (f : α → Except DecodeError β) :
    (Except.ok x).bind f = f x := rfl

theorem decodePcm_encodePcm (p : List ℕ) (hL : p.length ≤ maxPayloadLen)
    (hb : ∀ b ∈ p, b < 256) : decodePcm (encodePcm p) = .ok p := by
  rw [decodePcm, findStart_encodePcm p]
  show (demodulate ((encodePcm p).drop 0)).bind deframe = .ok p
  rw [List.drop_zero, encodePcm, demodulate_synthesize, except_bind_ok]
  exact deframe_frameBits p hL hb

/-- C2: composing the framer, line encoder, synthesizer, demodulator and
deframer is the identity on every payload of supported length (noiseless
synthesis, matching sample rate). -/
theorem roundTrip_payload (p : List ℕ) (fb : List Bool)
    (h1 : p.length ≤ maxPayloadLen) (h2 : ∀ b ∈ p, b < 256)
    (h3 : frame p = .ok fb) :
    (demodulate (synthesize (encodeLine fb))).bind deframe = .ok p := by
  rw [frame, if_pos h1] at h3
  obtain rfl : frameBits p = fb := Except.ok.inj h3
  rw [demodulate_synthesize, except_bind_ok]
  exact deframe_frameBits p h1 h2

theorem roundTrip_payload_witness :
    (demodulate (synthesize (encodeLine (frameBits [42])))).bind deframe = .ok [42] :=
  roundTrip_payload [42] (frameBits [42]) (by decide) (by decide) (by decide)

/-- C8: prepending any silence or sub-threshold noise before a valid
encoded signal leaves the decoded payload unchanged; only the start
offset reported by the signal detector moves, by exactly the length of
the prepended samples. -/
theorem decode_robust_to_leading_silence (p : List ℕ) (pre : List ℤ)
    (hL : p.length ≤ maxPayloadLen) (hb : ∀ b ∈ p, b < 256)
    (hpre : ∀ x ∈ pre, |x| ≤ noiseThreshold) :
    decodePcm (pre ++ encodePcm p) = decodePcm (encodePcm p) ∧
    decodePcm (encodePcm p) = .ok p ∧
    findStart (pre ++ encodePcm p) = some pre.length ∧
    findStart (encodePcm p) = some 0 := by
  have h0 := findStart_encodePcm p
  have h1 : findStart (pre ++ encodePcm p) = some pre.length := by
    rw [findStart_prepend pre _ hpre, h0]
    simp
  refine ⟨?_, decodePcm_encodePcm p hL hb, h1, h0⟩
  rw [decodePcm, h1, decodePcm, h0]
  show (demodulate ((pre ++ encodePcm p).drop pre.length)).bind deframe =
       (demodulate ((encodePcm p).drop 0)).bind deframe
  rw [List.drop_left, List.drop_zero]

theorem decode_robust_witness :
    decodePcm ([0, 0, 0] ++ encodePcm [7]) = decodePcm (encodePcm [7]) ∧
    decodePcm (encodePcm [7]) = .ok [7] ∧
    findStart ([0, 0, 0] ++ encodePcm [7]) = some 3 ∧
    findStart (encodePcm [7]) = some 0 :=
  decode_robust_to_leading_silence [7] [0, 0, 0] (by decide) (by decide) (by decide)

/-! ### The concrete "Test message" scenario -/

/-- The UTF-8 (ASCII) bytes of the message "Test message". -/
def testMessage : List ℕ := [84, 101, 115, 116, 32, 109, 101, 115, 115, 97, 103, 101]

theorem synthesize_length (bits : List Bool) :
    (synthesize (encodeLine bits)).length = bits.length * samplesPerSymbol := by
  induction bits with
  | nil => simp [synthesize, encodeLine]
  | cons b bs ih =>
    rw [show encodeLine (b :: bs) =
          (⟨if b then toneFreq1 else toneFreq0, samplesPerSymbol⟩ : Symbol) ::
            encodeLine bs from rfl,
      synthesize_cons, List.length_append, renderSymbol_length, ih, List.length_cons]
    ring

theorem frameBits_length (p : List ℕ) :
    (frameBits p).length =
      preambleBits.length + lengthFieldWidth + 8 * p.length + checksumFieldWidth := by
  rw [frameBits]
  simp [natToBits_length, bytesToBits_length, preambleBits_length,
    lengthFieldWidth, checksumFieldWidth]
  omega

theorem encodePcm_samples_bounded (p : List ℕ) :
    ∀ s ∈ encodePcm p, -32768 ≤ s ∧ s < 32768 := by
  intro s hs
  rw [encodePcm, synthesize] at hs
  obtain ⟨l, hl, hsl⟩ := List.mem_flatten.mp hs
  obtain ⟨sym, _, rfl⟩ := List.mem_map.mp hl
  rw [renderSymbol] at hsl
  obtain ⟨n, _, rfl⟩ := List.mem_map.mp hsl
  exact quantize_bounds _

theorem encodePcm_length (p : List ℕ) :
    (encodePcm p).length = (48 + 8 * p.length) * 441 := by
  rw [encodePcm, synthesize_length, frameBits_length]
  rw [preambleBits_length, lengthFieldWidth, checksumFieldWidth, samplesPerSymbol]
  omega

/-- C7: encoding "Test message" at 44100 Hz, 16-bit mono with 441 samples
per symbol yields a WAV whose data-chunk length is
(preamble_bits + length_bits + payload_bits + checksum_bits) × 441 × 2
bytes, and decoding that WAV returns exactly "Test message". -/
theorem testMessage_scenario :
    testMessage = "Test message".toList.map Char.toNat ∧
    wavDataSize (encodeWav testMessage) =
      (preambleBits.length + lengthFieldWidth + 8 * testMessage.length +
        checksumFieldWidth) * samplesPerSymbol * 2 ∧
    decodeWav (encodeWav testMessage) = .ok testMessage := by
  refine ⟨by decide, ?_, ?_⟩
  · rw [encodeWav, show sampleRate = 44100 from rfl,
      wavWrite_dataSize _ (by rw [encodePcm_length]; norm_num [testMessage]),
      encodePcm_length]
    norm_num [testMessage, preambleBits_length, lengthFieldWidth,
      checksumFieldWidth, samplesPerSymbol]
  · rw [decodeWav, encodeWav, show sampleRate = 44100 from rfl,
      wavRead_wavWrite _ (encodePcm_samples_bounded testMessage)
        (by rw [encodePcm_length]; norm_num [testMessage]),
      except_bind_ok]
    exact decodePcm_encodePcm testMessage (by decide) (by decide)

end Transmitwave
